import Mathlib

/-
  Verification of the matching/reconciliation core of `src/app.py`
  (JHCH_TRF-Volume warehouse volume calculator).

  Shallow embedding conventions:
  * Python floats are modelled by `ℚ` (exact arithmetic).
  * `rapidfuzz.fuzz.partial_ratio` is external library code, so the model is
    parametric in a `Scorer`; `rapidfuzz.process.extractOne` (choose the
    highest-scoring candidate, first occurrence wins ties, return `None` on an
    empty choice list) is modelled by `extractOne` below.
  * Exceptions (`IndexError` from out-of-range list access inside `worker`,
    `TypeError` from unpacking the `extractOne` result on an empty corpus,
    `KeyError` from a missing dict key) are modelled with `Except String`.
  * `pandas` column operations are modelled on lists: `fillna("")`/`astype(str)`
    are already folded into the `String`-typed inputs, `to_numeric(errors =
    coerce)` yields `Option ℚ` with `none` for non-numeric cells, `fillna(0)`
    is `Option.getD 0`.
-/

/-- A similarity scorer: `scorer query candidate` is the 0–100 score that
`rapidfuzz.fuzz.partial_ratio` would assign. The development is parametric in
it because the scorer is library code, not repository code. -/
def Scorer : Type := String → String → ℚ

/-- The catalog after column extraction in `load_product_info`: the
`Product Name` column (missing cells already `""`) zipped with the coerced
`CBM` column. `product_dict = dict(zip(names, cbms))` and
`product_name_list = names.tolist()` are derived views of this list. -/
structure Catalog where
  entries : List (String × ℚ)
deriving DecidableEq

/-- Lookup in a Python dict built with `dict(pairs)`: the value of the LAST
pair carrying the key (later pairs overwrite earlier ones). -/
def dictLookup : List (String × ℚ) → String → Option ℚ
  | [], _ => none
  | e :: rest, n =>
    match dictLookup rest n with
    | some w => some w
    | none => if e.1 = n then some e.2 else none

/-- Model of `product_dict[name]` as an `Option`: `dict(zip(names, cbms))` lookup. -/
def product_dict (c : Catalog) (name : String) : Option ℚ :=
  dictLookup c.entries name

/-- Model of `product_name_list = names.tolist()`: every catalog name, duplicates
retained, in original row order. -/
def product_name_list (c : Catalog) : List String :=
  c.entries.map Prod.fst

/-- One step of the best-candidate scan: keep the incumbent unless the new
candidate scores STRICTLY higher (so the first of equally scored candidates
wins, as in `rapidfuzz.process.extractOne`). -/
def better (scorer : Scorer) (query : String) (best : String × ℚ)
    (cand : String) : String × ℚ :=
  if best.2 < scorer query cand then (cand, scorer query cand) else best

/-- Model of `rapidfuzz.process.extractOne(query, choices, scorer)` without the unused
index component: `none` on an empty choice list, otherwise the first
highest-scoring candidate with its score. -/
def extractOne (scorer : Scorer) (query : String) :
    List String → Option (String × ℚ)
  | [] => none
  | x :: xs => some (xs.foldl (better scorer query) (x, scorer query x))

/-- The best (maximal) score of `query` against a corpus; `0` for an empty
corpus (only used on nonempty ones). -/
def bestScore (scorer : Scorer) (query : String) : List String → ℚ
  | [] => 0
  | x :: xs => xs.foldl (fun acc cand => max acc (scorer query cand)) (scorer query x)

/-- Model of `match_product` from `src/app.py`: exact dict hit first, otherwise fuzzy
`extractOne` and the fixed `score >= 80` threshold. `.error` marks the Python
exceptions: unpacking `None` on an empty corpus (`TypeError`), and a fuzzy
match whose name is not a dict key (`KeyError`, impossible for an index built
by `load_product_info`). -/
def match_product (scorer : Scorer) (c : Catalog) (name : String) :
    Except String (Option ℚ) :=
  match product_dict c name with
  | some v => .ok (some v)
  | none =>
    match extractOne scorer name (product_name_list c) with
    | none => .error "TypeError"
    | some (m, score) =>
      if 80 ≤ score then
        match product_dict c m with
        | some v => .ok (some v)
        | none => .error "KeyError"
      else .ok none

/-- Python `str.strip()`: remove leading and trailing whitespace characters.
(Executable replacement for `String.trim`, which does not kernel-reduce.) -/
def strip (s : String) : String :=
  ⟨((s.data.dropWhile Char.isWhitespace).reverse.dropWhile Char.isWhitespace).reverse⟩

/-- The body of `worker` for one row: `name = raw.strip()`, then
`match_product(name) if name else None`. -/
def resolveRow (scorer : Scorer) (c : Catalog) (raw : String) :
    Except String (Option ℚ) :=
  let name := strip raw
  if name = "" then .ok none else match_product scorer c name

/-- One loop iteration of `worker`: `product_names[i]` (raising `IndexError`
out of range) fed to the strip/guard/match body. -/
def resolveAt (scorer : Scorer) (c : Catalog) (names : List String) (i : ℕ) :
    Except String (Option ℚ) :=
  match names[i]? with
  | none => .error "IndexError"
  | some raw => resolveRow scorer c raw

/-- Left-to-right effectful map over `Except`, stopping at the first error —
exactly how the Python loops append results and how `future.result()` in
submission order surfaces the first failure. -/
def mapE {α β : Type} (f : α → Except String β) : List α → Except String (List β)
  | [] => .ok []
  | a :: as =>
    match f a with
    | .error e => .error e
    | .ok b =>
      match mapE f as with
      | .error e => .error e
      | .ok bs => .ok (b :: bs)

/-- Model of `worker(start, end)` from `src/app.py`: resolve indices `start ≤ i < end`
into a local buffer. -/
def worker (scorer : Scorer) (c : Catalog) (names : List String) (s e : ℕ) :
    Except String (List (Option ℚ)) :=
  mapE (resolveAt scorer c names) (List.range' s (e - s))

/-- The chunk layout of `process_warehouse_file`: `step = max(total // 4, 1)`,
chunks `(i*step, (i+1)*step)` for `i < 3` and `(3*step, total)` for the last. -/
def chunkBounds (total : ℕ) : List (ℕ × ℕ) :=
  let step := max (total / 4) 1
  [(0, step), (step, 2 * step), (2 * step, 3 * step), (3 * step, total)]

/-- Resolution by independent contiguous chunks: run `worker` on each bound,
concatenate the partial buffers in chunk order (`volumes.extend(f.result())`). -/
def chunkedResolve (scorer : Scorer) (c : Catalog) (names : List String)
    (bounds : List (ℕ × ℕ)) : Except String (List (Option ℚ)) :=
  match mapE (fun b => worker scorer c names b.1 b.2) bounds with
  | .error e => .error e
  | .ok parts => .ok parts.flatten

/-- Reference semantics from the spec: plain sequential left-to-right
resolution of every row name. -/
def sequentialResolve (scorer : Scorer) (c : Catalog) (names : List String) :
    Except String (List (Option ℚ)) :=
  mapE (resolveRow scorer c) names

/-- The volume-matching phase of `process_warehouse_file`: the thread pool over
the four chunks of `chunkBounds`. -/
def computeVolumes (scorer : Scorer) (c : Catalog) (names : List String) :
    Except String (List (Option ℚ)) :=
  chunkedResolve scorer c names (chunkBounds names.length)

/-- A warehouse row after column extraction: product-name cell with
`fillna("")`/`astype(str)` applied, quantity after
`to_numeric(errors=coerce).fillna(0)`. -/
structure Row where
  name : String
  qty : ℚ
deriving DecidableEq

/-- An output row: the original cells plus the appended `Volume` column
(`to_numeric(volumes).fillna(0)`, so never null) and
`Total Volume = Volume * quantity`. -/
structure ResolvedRow where
  name : String
  qty : ℚ
  volume : ℚ
  total : ℚ
deriving DecidableEq

/-- Model of `process_warehouse_file` from `src/app.py` on the extracted columns:
chunked volume matching, `Volume`/`Total Volume` columns, and the trailer row
carrying `df["Total Volume"].sum()` (returned as the second component). -/
def process_warehouse_file (scorer : Scorer) (c : Catalog) (rows : List Row) :
    Except String (List ResolvedRow × ℚ) :=
  match computeVolumes scorer c (rows.map Row.name) with
  | .error e => .error e
  | .ok volumes =>
    let vols := volumes.map (fun v => v.getD 0)
    let resolved := (rows.zip vols).map
      (fun p => ⟨p.1.name, p.1.qty, p.2, p.2 * p.1.qty⟩)
    .ok (resolved, (resolved.map ResolvedRow.total).sum)

/-- The catalog source table as seen by `load_product_info` after download:
its column names, and the `Product Name` / `CBM` columns (a `CBM` cell is
`none` when `to_numeric(errors=coerce)` yields `NaN`, i.e. non-numeric). -/
structure ProductTable where
  columns : List String
  names : List String
  cbms : List (Option ℚ)

/-- Model of `load_product_info` from `src/app.py` (download and caching aside): raise
`ValueError` when `{"Product Name", "CBM"} - set(df.columns)` is nonempty,
otherwise build `dict(zip(names, cbms))` with non-numeric `CBM` defaulted to
`0` by `fillna(0)`. -/
def load_product_info (t : ProductTable) : Except String Catalog :=
  if "Product Name" ∈ t.columns ∧ "CBM" ∈ t.columns then
    .ok ⟨t.names.zip (t.cbms.map (fun o => o.getD 0))⟩
  else
    .error "The Excel file must contain Product Name and CBM columns"

/-- Appending a pair overwrites its own key: the heart of last-write-wins. -/
lemma dictLookup_append_last (l : List (String × ℚ)) (n : String) (v : ℚ) :
    dictLookup (l ++ [(n, v)]) n = some v := by
  induction l with
  | nil => simp [dictLookup]
  | cons e rest ih => simp [dictLookup, ih]

/-- Appending a pair leaves every other key unchanged. -/
lemma dictLookup_append_ne (l : List (String × ℚ)) {m n : String} (v : ℚ)
    (h : m ≠ n) : dictLookup (l ++ [(n, v)]) m = dictLookup l m := by
  induction l with
  | nil => simp [dictLookup, Ne.symm h]
  | cons e rest ih => simp [dictLookup, ih]

/-- Every key the dict can answer occurs among the pair keys. -/
lemma dictLookup_isSome_mem {l : List (String × ℚ)} {m : String}
    (h : (dictLookup l m).isSome) : m ∈ l.map Prod.fst := by
  induction l with
  | nil => simp [dictLookup] at h
  | cons e rest ih =>
    simp only [dictLookup] at h
    cases hd : dictLookup rest m with
    | some w => exact List.mem_cons_of_mem _ (ih (by simp [hd]))
    | none =>
      rw [hd] at h
      by_cases he : e.1 = m
      · simp [he]
      · simp [he] at h

/-- Conversely, every occurring key gets an answer from the dict. -/
lemma mem_dictLookup_isSome {l : List (String × ℚ)} {m : String}
    (h : m ∈ l.map Prod.fst) : (dictLookup l m).isSome := by
  induction l with
  | nil => simp at h
  | cons e rest ih =>
    rw [List.map_cons] at h
    rcases List.mem_cons.mp h with h1 | h2
    · cases hd : dictLookup rest m with
      | some w => simp [dictLookup, hd]
      | none => simp [dictLookup, hd, h1.symm]
    · have := ih h2
      cases hd : dictLookup rest m with
      | some w => simp [dictLookup, hd]
      | none => rw [hd] at this; simp at this

/-- One scan step keeps the running maximum of the scores. -/
lemma better_snd (scorer : Scorer) (q : String) (b : String × ℚ) (cand : String) :
    (better scorer q b cand).2 = max b.2 (scorer q cand) := by
  by_cases h : b.2 < scorer q cand
  · simp [better, h, max_eq_right h.le]
  · simp [better, h, max_eq_left (not_lt.mp h)]

/-- The scan's final score is the running maximum over the whole list. -/
lemma foldl_better_snd (scorer : Scorer) (q : String) (l : List String) :
    ∀ b : String × ℚ, (l.foldl (better scorer q) b).2
      = l.foldl (fun acc cand => max acc (scorer q cand)) b.2 := by
  induction l with
  | nil => intro b; rfl
  | cons x xs ih =>
    intro b
    rw [List.foldl_cons, List.foldl_cons, ih, better_snd]

/-- The scan's result is the initial pair or an element paired with its score. -/
lemma foldl_better_choice (scorer : Scorer) (q : String) (l : List String) :
    ∀ b : String × ℚ, l.foldl (better scorer q) b = b
      ∨ ((l.foldl (better scorer q) b).1 ∈ l
          ∧ (l.foldl (better scorer q) b).2 = scorer q (l.foldl (better scorer q) b).1) := by
  induction l with
  | nil => intro b; left; rfl
  | cons x xs ih =>
    intro b
    rw [List.foldl_cons]
    rcases ih (better scorer q b x) with h | h
    · rw [h]
      by_cases hx : b.2 < scorer q x
      · right
        refine ⟨?_, ?_⟩ <;> simp [better, hx]
      · left
        simp [better, hx]
    · exact Or.inr ⟨List.mem_cons_of_mem _ h.1, h.2⟩

/-- The scan never moves off an incumbent at least as good as everything left. -/
lemma foldl_better_no_update (scorer : Scorer) (q : String) :
    ∀ (l : List String) (b : String × ℚ), (∀ x ∈ l, scorer q x ≤ b.2) →
      l.foldl (better scorer q) b = b := by
  intro l
  induction l with
  | nil => intro b _; rfl
  | cons x xs ih =>
    intro b h
    have hx : ¬b.2 < scorer q x := not_lt.mpr (h x (List.mem_cons_self x xs))
    rw [List.foldl_cons, show better scorer q b x = b from by simp [better, hx]]
    exact ih b fun y hy => h y (List.mem_cons_of_mem _ hy)

/-- Once every earlier element (and the incumbent) scores strictly below `m`
and nothing after `m` beats it, the scan lands exactly on `m`. -/
lemma foldl_better_first (scorer : Scorer) (q m : String) (l₂ : List String)
    (h₂ : ∀ x ∈ l₂, scorer q x ≤ scorer q m) :
    ∀ (l₁ : List String) (b : String × ℚ), b.2 < scorer q m →
      (∀ x ∈ l₁, scorer q x < scorer q m) →
      (l₁ ++ m :: l₂).foldl (better scorer q) b = (m, scorer q m) := by
  intro l₁
  induction l₁ with
  | nil =>
    intro b hb _
    rw [List.nil_append, List.foldl_cons,
      show better scorer q b m = (m, scorer q m) from by simp [better, hb]]
    exact foldl_better_no_update scorer q l₂ (m, scorer q m) h₂
  | cons a l₁' ih =>
    intro b hb h₁
    have ha : scorer q a < scorer q m := h₁ a (List.mem_cons_self a l₁')
    rw [List.cons_append, List.foldl_cons]
    refine ih (better scorer q b a) ?_ fun x hx => h₁ x (List.mem_cons_of_mem _ hx)
    rw [show (better scorer q b a).2 = max b.2 (scorer q a) from better_snd scorer q b a]
    exact max_lt hb ha

/-- On a nonempty corpus `extractOne` returns some candidate achieving the
best (maximal) score. -/
lemma extractOne_spec (scorer : Scorer) (q : String) {l : List String}
    (hl : l ≠ []) :
    ∃ m, extractOne scorer q l = some (m, bestScore scorer q l)
      ∧ m ∈ l ∧ scorer q m = bestScore scorer q l := by
  cases l with
  | nil => exact absurd rfl hl
  | cons x xs =>
    have hsnd : (xs.foldl (better scorer q) (x, scorer q x)).2
        = bestScore scorer q (x :: xs) := foldl_better_snd scorer q xs (x, scorer q x)
    rcases foldl_better_choice scorer q xs (x, scorer q x) with h | h
    · refine ⟨x, ?_, List.mem_cons_self x xs, ?_⟩
      · rw [extractOne, h]
        rw [h] at hsnd
        rw [← hsnd]
      · rw [h] at hsnd
        exact hsnd
    · refine ⟨(xs.foldl (better scorer q) (x, scorer q x)).1, ?_,
        List.mem_cons_of_mem _ h.1, ?_⟩
      · rw [extractOne, ← hsnd]
      · rw [← hsnd, h.2]

/-- On a corpus split around the first maximal candidate `m`, `extractOne`
returns `m` itself: ties behind `m` never displace it. -/
lemma extractOne_first (scorer : Scorer) (q : String) (l₁ l₂ : List String)
    (m : String) (h₁ : ∀ x ∈ l₁, scorer q x < scorer q m)
    (h₂ : ∀ x ∈ l₂, scorer q x ≤ scorer q m) :
    extractOne scorer q (l₁ ++ m :: l₂) = some (m, scorer q m) := by
  cases l₁ with
  | nil =>
    rw [List.nil_append, extractOne]
    rw [foldl_better_no_update scorer q l₂ (m, scorer q m) h₂]
  | cons a l₁' =>
    have ha : scorer q a < scorer q m := h₁ a (List.mem_cons_self a l₁')
    rw [List.cons_append, extractOne]
    rw [foldl_better_first scorer q m l₂ h₂ l₁' (a, scorer q a) ha
      (fun x hx => h₁ x (List.mem_cons_of_mem _ hx))]

/-- Claim C1: exact-match precedence. If the query is present verbatim as a
key of `product_dict`, `match_product` returns that unit volume for EVERY
scorer, i.e. without consulting the fuzzy scorer at all, even if some other
catalog entry would score higher under fuzzy comparison. -/
theorem exact_match_precedence (scorer : Scorer) (c : Catalog) (name : String)
    (v : ℚ) (h : product_dict c name = some v) :
    match_product scorer c name = .ok (some v) := by
  simp [match_product, h]

/-- Witness for C1: catalog `a ↦ 1, ab ↦ 2`, query `a`, under a scorer that
rates every candidate 100 (so a fuzzy pass would also accept `ab`): the exact
entry wins. -/
theorem exact_match_precedence_witness :
    product_dict ⟨[("a", 1), ("ab", 2)]⟩ "a" = some 1
    ∧ match_product (fun _ _ => 100) ⟨[("a", 1), ("ab", 2)]⟩ "a" = .ok (some 1) :=
  ⟨rfl, exact_match_precedence (fun _ _ => 100) ⟨[("a", 1), ("ab", 2)]⟩ "a" 1 rfl⟩

/-- Claim C8: the built index is last-write-wins on duplicate names, the name
sequence keeps every name (duplicates included) in original order, and every
key of the mapping appears in the name sequence. -/
theorem catalog_index_construction (entries : List (String × ℚ))
    (n m : String) (v : ℚ) :
    product_dict ⟨entries ++ [(n, v)]⟩ n = some v
    ∧ (m ≠ n → product_dict ⟨entries ++ [(n, v)]⟩ m = product_dict ⟨entries⟩ m)
    ∧ product_name_list ⟨entries ++ [(n, v)]⟩ = entries.map Prod.fst ++ [n]
    ∧ (∀ k, (product_dict ⟨entries⟩ k).isSome → k ∈ product_name_list ⟨entries⟩) := by
  refine ⟨dictLookup_append_last entries n v,
    fun h => dictLookup_append_ne entries v h, ?_,
    fun k hk => dictLookup_isSome_mem hk⟩
  simp [product_name_list]

/-- Witness for C8 at a catalog with duplicate name `a`: the appended third
`a`-entry wins the mapping, key `b` is untouched, the name sequence keeps all
three occurrences, and key `a` appears in the name sequence. -/
theorem catalog_index_construction_witness :
    product_dict ⟨[("a", 1), ("a", 2)] ++ [("a", 3)]⟩ "a" = some 3
    ∧ product_dict ⟨[("a", 1), ("a", 2)] ++ [("a", 3)]⟩ "b"
        = product_dict ⟨[("a", 1), ("a", 2)]⟩ "b"
    ∧ product_name_list ⟨[("a", 1), ("a", 2)] ++ [("a", 3)]⟩ = ["a", "a"] ++ ["a"]
    ∧ "a" ∈ product_name_list ⟨[("a", 1), ("a", 2)]⟩ :=
  ⟨(catalog_index_construction [("a", 1), ("a", 2)] "a" "b" 3).1,
   (catalog_index_construction [("a", 1), ("a", 2)] "a" "b" 3).2.1 (by decide),
   (catalog_index_construction [("a", 1), ("a", 2)] "a" "b" 3).2.2.1,
   (catalog_index_construction [("a", 1), ("a", 2)] "a" "b" 3).2.2.2 "a" (by rfl)⟩

/-- Claim C9: loading succeeds exactly when both required columns are present
(otherwise the schema `ValueError` is raised), and a non-numeric `CBM` cell
does not raise: it defaults to `0` (shown here for a last row whose `CBM`
failed numeric coercion). -/
theorem catalog_loading_errors (t : ProductTable) :
    ((∃ c, load_product_info t = .ok c)
        ↔ "Product Name" ∈ t.columns ∧ "CBM" ∈ t.columns)
    ∧ (∀ names cbms n, t.names = names ++ [n] → t.cbms = cbms ++ [none] →
        names.length = cbms.length →
        ∀ c, load_product_info t = .ok c → product_dict c n = some 0) := by
  constructor
  · constructor
    · rintro ⟨c, hc⟩
      by_cases hP : "Product Name" ∈ t.columns ∧ "CBM" ∈ t.columns
      · exact hP
      · simp [load_product_info, hP] at hc
    · intro hP
      exact ⟨⟨t.names.zip (t.cbms.map fun o => o.getD 0)⟩,
        by simp [load_product_info, hP]⟩
  · intro names cbms n h1 h2 hlen c hc
    by_cases hP : "Product Name" ∈ t.columns ∧ "CBM" ∈ t.columns
    · simp only [load_product_info, if_pos hP, Except.ok.injEq] at hc
      subst hc
      rw [product_dict, h1, h2, List.map_append,
        List.zip_append (by simpa using hlen)]
      simpa using dictLookup_append_last (names.zip (cbms.map fun o => o.getD 0)) n 0
    · simp [load_product_info, hP] at hc

/-- Witness for C9: a two-column table whose second row has a non-numeric
`CBM`: loading succeeds and that product maps to volume `0`. -/
theorem catalog_loading_errors_witness :
    (∃ c, load_product_info ⟨["Product Name", "CBM"], ["a", "b"],
        [some 1, none]⟩ = .ok c)
    ∧ product_dict ⟨[("a", 1), ("b", 0)]⟩ "b" = some 0 :=
  ⟨(catalog_loading_errors ⟨["Product Name", "CBM"], ["a", "b"],
      [some 1, none]⟩).1.mpr (by simp),
   (catalog_loading_errors ⟨["Product Name", "CBM"], ["a", "b"],
      [some 1, none]⟩).2 ["a"] [some 1] "b" rfl rfl rfl
      ⟨[("a", 1), ("b", 0)]⟩ (by rfl)⟩

/-- Claim C2: threshold boundary. For a query with no exact key and a
nonempty corpus: if the best fuzzy score is at least 80 (including exactly
80), `match_product` returns the unit volume of a best-scoring candidate; if
the best score is below 80, it returns null. -/
theorem threshold_boundary (scorer : Scorer) (c : Catalog) (name : String)
    (hne : product_dict c name = none) (hcorp : product_name_list c ≠ []) :
    (80 ≤ bestScore scorer name (product_name_list c) →
      ∃ m v, m ∈ product_name_list c
        ∧ scorer name m = bestScore scorer name (product_name_list c)
        ∧ product_dict c m = some v
        ∧ match_product scorer c name = .ok (some v))
    ∧ (bestScore scorer name (product_name_list c) < 80 →
      match_product scorer c name = .ok none) := by
  obtain ⟨m, hEx, hmem, hsc⟩ := extractOne_spec scorer name hcorp
  constructor
  · intro h80
    have hSome : (product_dict c m).isSome := mem_dictLookup_isSome hmem
    obtain ⟨v, hv⟩ := Option.isSome_iff_exists.mp hSome
    refine ⟨m, v, hmem, hsc, hv, ?_⟩
    simp [match_product, hne, hEx, h80, hv]
  · intro hlt
    simp [match_product, hne, hEx, not_le.mpr hlt]

/-- Witness for C2 at both sides of the boundary: with a constant-80 scorer
the single candidate `ab` (volume 3) is returned; with a constant-79 scorer
the same query yields null. -/
theorem threshold_boundary_witness :
    (∃ m v, m ∈ product_name_list ⟨[("ab", 3)]⟩
      ∧ (fun _ _ => (80 : ℚ)) "q" m
          = bestScore (fun _ _ => (80 : ℚ)) "q" (product_name_list ⟨[("ab", 3)]⟩)
      ∧ product_dict ⟨[("ab", 3)]⟩ m = some v
      ∧ match_product (fun _ _ => (80 : ℚ)) ⟨[("ab", 3)]⟩ "q" = .ok (some v))
    ∧ match_product (fun _ _ => (79 : ℚ)) ⟨[("ab", 3)]⟩ "q" = .ok none :=
  ⟨(threshold_boundary (fun _ _ => 80) ⟨[("ab", 3)]⟩ "q" rfl
      (by simp [product_name_list])).1 (by decide),
   (threshold_boundary (fun _ _ => 79) ⟨[("ab", 3)]⟩ "q" rfl
      (by simp [product_name_list])).2 (by decide)⟩

/-- Claim C7: fuzzy tie-breaking. When the corpus splits as
`l₁ ++ m :: l₂` with everything before `m` scoring strictly below `m` and
nothing after beating it (ties allowed, and at least one tie present), the
candidate selected is `m`, the first occurrence of the best score, and its
unit volume is returned once the threshold passes. -/
theorem fuzzy_tie_break (scorer : Scorer) (c : Catalog) (name : String)
    (l₁ l₂ : List String) (m : String)
    (hne : product_dict c name = none)
    (hcorp : product_name_list c = l₁ ++ m :: l₂)
    (hfirst : ∀ x ∈ l₁, scorer name x < scorer name m)
    (hmax : ∀ x ∈ l₂, scorer name x ≤ scorer name m)
    (_htie : ∃ x ∈ l₂, scorer name x = scorer name m)
    (h80 : 80 ≤ scorer name m) :
    ∃ v, product_dict c m = some v
      ∧ match_product scorer c name = .ok (some v) := by
  have hmem : m ∈ product_name_list c := by
    rw [hcorp]
    exact List.mem_append_right _ (List.mem_cons_self m l₂)
  have hSome : (product_dict c m).isSome := mem_dictLookup_isSome hmem
  obtain ⟨v, hv⟩ := Option.isSome_iff_exists.mp hSome
  have hEx : extractOne scorer name (product_name_list c)
      = some (m, scorer name m) := by
    rw [hcorp]
    exact extractOne_first scorer name l₁ l₂ m hfirst hmax
  exact ⟨v, hv, by simp [match_product, hne, hEx, h80, hv]⟩

/-- Witness for C7: corpus `a, b, c` where `a` scores 50 and both `b` and `c`
score 90 (a tie): the first best-scorer `b` is selected and its volume 2 is
returned. -/
theorem fuzzy_tie_break_witness :
    ∃ v, product_dict ⟨[("a", 1), ("b", 2), ("c", 3)]⟩ "b" = some v
      ∧ match_product (fun _ cand => if cand = "a" then 50 else 90)
          ⟨[("a", 1), ("b", 2), ("c", 3)]⟩ "q" = .ok (some v) :=
  fuzzy_tie_break (fun _ cand => if cand = "a" then 50 else 90)
    ⟨[("a", 1), ("b", 2), ("c", 3)]⟩ "q" ["a"] ["c"] "b" rfl rfl
    (by decide) (by decide) ⟨"c", by decide, by decide⟩ (by decide)

/-- Adjacent index ranges concatenate (step-1 special case). -/
lemma range1_append (s m n : ℕ) :
    List.range' s m ++ List.range' (s + m) n = List.range' s (m + n) := by
  induction m generalizing s with
  | zero => simp
  | succ k ih =>
    rw [List.range'_succ, List.cons_append,
      show s + (k + 1) = (s + 1) + k from by omega, ih (s + 1),
      show k + 1 + n = (k + n) + 1 from by omega, List.range'_succ]

/-- Running `mapE` over a concatenation runs the two halves in order, stopping at the
first error. -/
lemma mapE_append {α β : Type} (f : α → Except String β) (l₁ l₂ : List α) :
    mapE f (l₁ ++ l₂) =
      match mapE f l₁ with
      | .error e => .error e
      | .ok v₁ =>
        match mapE f l₂ with
        | .error e => .error e
        | .ok v₂ => .ok (v₁ ++ v₂) := by
  induction l₁ with
  | nil =>
    cases h : mapE f l₂ with
    | error e => simp [mapE, h]
    | ok v => simp [mapE, h]
  | cons a as ih =>
    rw [List.cons_append]
    cases ha : f a with
    | error e => simp [mapE, ha]
    | ok b =>
      rw [show mapE f (a :: (as ++ l₂)) =
          (match mapE f (as ++ l₂) with
            | .error e => .error e
            | .ok bs => .ok (b :: bs)) from by simp [mapE, ha], ih]
      cases h1 : mapE f as with
      | error e => simp [mapE, ha, h1]
      | ok v₁ =>
        cases h2 : mapE f l₂ with
        | error e => simp [mapE, ha, h1]
        | ok v₂ => simp [mapE, ha, h1]

/-- A successful `mapE` produces one output per input. -/
lemma mapE_ok_length {α β : Type} {f : α → Except String β} :
    ∀ {l : List α} {v : List β}, mapE f l = .ok v → v.length = l.length := by
  intro l
  induction l with
  | nil => intro v h; simp [mapE] at h; simp [← h]
  | cons a as ih =>
    intro v h
    cases ha : f a with
    | error e => simp [mapE, ha] at h
    | ok b =>
      cases hs : mapE f as with
      | error e => simp [mapE, ha, hs] at h
      | ok bs =>
        simp [mapE, ha, hs] at h
        simp [← h, ih hs]

/-- A successful `mapE` succeeded on every element. -/
lemma mapE_ok_forall {α β : Type} {f : α → Except String β} :
    ∀ {l : List α} {v : List β}, mapE f l = .ok v →
      ∀ a ∈ l, ∃ b, f a = .ok b := by
  intro l
  induction l with
  | nil => intro v _ a ha; simp at ha
  | cons x xs ih =>
    intro v h a ha
    cases hx : f x with
    | error e => simp [mapE, hx] at h
    | ok b =>
      cases hs : mapE f xs with
      | error e => simp [mapE, hx, hs] at h
      | ok bs =>
        rcases List.mem_cons.mp ha with rfl | hmem
        · exact ⟨b, hx⟩
        · exact ih hs a hmem

/-- A successful `mapE` computes exactly `f` at every position. -/
lemma mapE_ok_get {α β : Type} {f : α → Except String β} :
    ∀ {l : List α} {v : List β}, mapE f l = .ok v →
      ∀ i (h1 : i < l.length) (h2 : i < v.length),
        f (l.get ⟨i, h1⟩) = .ok (v.get ⟨i, h2⟩) := by
  intro l
  induction l with
  | nil => intro v _ i h1; simp at h1
  | cons x xs ih =>
    intro v h i h1 h2
    cases hx : f x with
    | error e => simp [mapE, hx] at h
    | ok b =>
      cases hs : mapE f xs with
      | error e => simp [mapE, hx, hs] at h
      | ok bs =>
        simp only [mapE, hx, hs] at h
        have hv : v = b :: bs := by
          cases h
          rfl
        subst hv
        cases i with
        | zero => simpa using hx
        | succ j =>
          exact ih hs j (Nat.lt_of_succ_lt_succ h1) (Nat.lt_of_succ_lt_succ h2)

/-- Results of `mapE` agree when the functions agree on the list. -/
lemma mapE_congr {α β : Type} {f g : α → Except String β} :
    ∀ {l : List α}, (∀ a ∈ l, f a = g a) → mapE f l = mapE g l := by
  intro l
  induction l with
  | nil => intro _; rfl
  | cons x xs ih =>
    intro h
    rw [show mapE f (x :: xs) =
        (match f x with
          | .error e => .error e
          | .ok b =>
            match mapE f xs with
            | .error e => .error e
            | .ok bs => .ok (b :: bs)) from rfl,
      h x (List.mem_cons_self x xs), ih fun a ha => h a (List.mem_cons_of_mem _ ha)]
    rfl


/-- Unfolding equation of `mapE` on a nonempty list. -/
lemma mapE_cons {α β : Type} (f : α → Except String β) (a : α) (as : List α) :
    mapE f (a :: as) =
      match f a with
      | .error e => .error e
      | .ok b =>
        match mapE f as with
        | .error e => .error e
        | .ok bs => .ok (b :: bs) := rfl

/-- Chunked resolution equals index-by-index resolution over the concatenated
index ranges: the purity of the per-row work makes chunk boundaries invisible,
including which error surfaces first. -/
lemma chunked_eq_seq_of_cov (scorer : Scorer) (c : Catalog) (names : List String) :
    ∀ (bounds : List (ℕ × ℕ)) (idx : List ℕ),
      (bounds.map fun b => List.range' b.1 (b.2 - b.1)).flatten = idx →
      chunkedResolve scorer c names bounds
        = mapE (resolveAt scorer c names) idx := by
  intro bounds
  induction bounds with
  | nil =>
    intro idx hcov
    simp at hcov
    subst hcov
    rfl
  | cons b bs ih =>
    intro idx hcov
    rw [List.map_cons, List.flatten_cons] at hcov
    rw [← hcov, mapE_append]
    have hbs := ih ((bs.map fun b => List.range' b.1 (b.2 - b.1)).flatten) rfl
    rw [chunkedResolve, mapE_cons, worker]
    cases h1 : mapE (resolveAt scorer c names) (List.range' b.1 (b.2 - b.1)) with
    | error e => rfl
    | ok v =>
      cases h2 : mapE (fun b => worker scorer c names b.1 b.2) bs with
      | error e =>
        rw [chunkedResolve, h2] at hbs
        rw [← hbs]
      | ok parts =>
        rw [chunkedResolve, h2] at hbs
        rw [← hbs]
        rfl

/-- Shifting an index range by one. -/
lemma range'_succ_left (n : ℕ) : ∀ s : ℕ,
    List.range' (s + 1) n = (List.range' s n).map (· + 1) := by
  induction n with
  | zero => intro s; rfl
  | succ k ih =>
    intro s
    rw [List.range'_succ, List.range'_succ, List.map_cons, ih (s + 1)]

/-- Running `mapE` over a mapped list composes the functions. -/
lemma mapE_map {α γ β : Type} (f : α → Except String β) (g : γ → α) :
    ∀ l : List γ, mapE f (l.map g) = mapE (fun x => f (g x)) l := by
  intro l
  induction l with
  | nil => rfl
  | cons x xs ih =>
    rw [List.map_cons, mapE_cons, ih, mapE_cons]

/-- Index-by-index resolution over all indices is exactly sequential
left-to-right resolution of the names themselves. -/
lemma seq_index_eq (scorer : Scorer) (c : Catalog) :
    ∀ names : List String,
      mapE (resolveAt scorer c names) (List.range' 0 names.length)
        = sequentialResolve scorer c names := by
  intro names
  induction names with
  | nil => rfl
  | cons x xs ih =>
    have h0 : resolveAt scorer c (x :: xs) 0 = resolveRow scorer c x := by
      simp [resolveAt]
    have hsh : ∀ i : ℕ, resolveAt scorer c (x :: xs) (i + 1)
        = resolveAt scorer c xs i := by
      intro i
      simp [resolveAt]
    rw [List.length_cons, List.range'_succ, sequentialResolve, mapE_cons,
      mapE_cons, h0, show (0 : ℕ) + 1 = 1 from rfl, range'_succ_left,
      mapE_map, mapE_congr fun i _ => hsh i, ih]
    rfl

/-- When three full chunks fit (`3 * step ≤ total`), the four chunk ranges
tile the index range `[0, total)` exactly. -/
lemma chunkBounds_cov {total : ℕ} (h3 : 3 * max (total / 4) 1 ≤ total) :
    ((chunkBounds total).map fun b => List.range' b.1 (b.2 - b.1)).flatten
      = List.range' 0 total := by
  simp only [chunkBounds, List.map_cons, List.map_nil, List.flatten_cons,
    List.flatten_nil, List.append_nil]
  generalize hk : max (total / 4) 1 = k at h3 ⊢
  rw [show k - 0 = k from by omega,
    show 2 * k - k = k from by omega,
    show 3 * k - 2 * k = k from by omega]
  nth_rewrite 2 [show total = k + (k + (k + (total - 3 * k))) from by omega]
  rw [← range1_append 0 k (k + (k + (total - 3 * k))), Nat.zero_add,
    ← range1_append k k (k + (total - 3 * k)),
    show k + k = 2 * k from by omega,
    ← range1_append (2 * k) k (total - 3 * k),
    show 2 * k + k = 3 * k from by omega]

/-- A successful chunked volume-matching pass computes exactly the sequential
resolution: success forces every accessed index in range, hence full coverage. -/
lemma computeVolumes_ok {scorer : Scorer} {c : Catalog} {names : List String}
    {vols : List (Option ℚ)} (h : computeVolumes scorer c names = .ok vols) :
    sequentialResolve scorer c names = .ok vols := by
  rw [computeVolumes, chunkedResolve] at h
  cases hm : mapE (fun b => worker scorer c names b.1 b.2)
      (chunkBounds names.length) with
  | error e =>
    rw [hm] at h
    exact absurd h (by simp)
  | ok parts =>
    rw [hm] at h
    have hvols : parts.flatten = vols := by
      cases h
      rfl
    have hmem : ((2 * max (names.length / 4) 1, 3 * max (names.length / 4) 1)
        : ℕ × ℕ) ∈ chunkBounds names.length := by
      simp [chunkBounds]
    obtain ⟨v2, hv2⟩ := mapE_ok_forall hm _ hmem
    have h3 : 3 * max (names.length / 4) 1 ≤ names.length := by
      rw [worker,
        show 3 * max (names.length / 4) 1 - 2 * max (names.length / 4) 1
          = max (names.length / 4) 1 from by omega] at hv2
      have hstep1 : 1 ≤ max (names.length / 4) 1 := le_max_right _ _
      have hmemi : 3 * max (names.length / 4) 1 - 1
          ∈ List.range' (2 * max (names.length / 4) 1)
              (max (names.length / 4) 1) := by
        rw [List.mem_range'_1]
        omega
      obtain ⟨b, hb⟩ := mapE_ok_forall hv2 _ hmemi
      rw [resolveAt] at hb
      by_contra hgt
      rw [List.getElem?_eq_none (by omega)] at hb
      exact absurd hb (by simp)
    rw [← seq_index_eq, ← chunkBounds_cov h3,
      ← chunked_eq_seq_of_cov scorer c names (chunkBounds names.length) _ rfl,
      chunkedResolve, hm]
    exact h

/-- Characterization of a successful `process_warehouse_file` run: the
volumes are the sequential resolution of the names, rows come back zipped
with their coerced volumes in order, and the trailer is the column sum. -/
lemma process_ok_char {scorer : Scorer} {c : Catalog} {rows : List Row}
    {rs : List ResolvedRow} {t : ℚ}
    (h : process_warehouse_file scorer c rows = .ok (rs, t)) :
    ∃ vols, sequentialResolve scorer c (rows.map Row.name) = .ok vols
      ∧ vols.length = rows.length
      ∧ rs = (rows.zip (vols.map fun v => v.getD 0)).map
          (fun p => ⟨p.1.name, p.1.qty, p.2, p.2 * p.1.qty⟩)
      ∧ t = (rs.map ResolvedRow.total).sum := by
  rw [process_warehouse_file] at h
  cases hcv : computeVolumes scorer c (rows.map Row.name) with
  | error e =>
    rw [hcv] at h
    exact absurd h (by simp)
  | ok volumes =>
    rw [hcv] at h
    simp only [Except.ok.injEq, Prod.mk.injEq] at h
    have hseq := computeVolumes_ok hcv
    have hseq2 : mapE (resolveRow scorer c) (rows.map Row.name)
        = .ok volumes := hseq
    have hlen : volumes.length = rows.length := by
      rw [mapE_ok_length hseq2, List.length_map]
    refine ⟨volumes, hseq, hlen, h.1.symm, ?_⟩
    rw [← h.1, ← h.2]

/-- A row whose name resolves to null is emitted with `Volume = 0` and
`Total Volume = 0` (the `fillna(0)` coercion of the `Volume` column). -/
lemma row_none_zero {scorer : Scorer} {c : Catalog} {rows : List Row}
    {rs : List ResolvedRow} {t : ℚ} {i : ℕ}
    (h : process_warehouse_file scorer c rows = .ok (rs, t))
    (hi : i < rows.length)
    (hnone : resolveRow scorer c (rows.get ⟨i, hi⟩).name = .ok none) :
    ∃ hi2 : i < rs.length,
      (rs.get ⟨i, hi2⟩).volume = 0 ∧ (rs.get ⟨i, hi2⟩).total = 0 := by
  obtain ⟨vols, hseq, hlen, hrs, _⟩ := process_ok_char h
  have hseq2 : mapE (resolveRow scorer c) (rows.map Row.name)
      = .ok vols := hseq
  have hivols : i < vols.length := by rw [hlen]; exact hi
  have hmap : i < (rows.map Row.name).length := by
    rw [List.length_map]; exact hi
  have hval := mapE_ok_get hseq2 i hmap hivols
  have hgetmap : (rows.map Row.name).get ⟨i, hmap⟩ = (rows.get ⟨i, hi⟩).name := by
    simp [List.get_eq_getElem, List.getElem_map]
  rw [hgetmap, hnone] at hval
  have hvi : vols.get ⟨i, hivols⟩ = none := (Except.ok.inj hval).symm
  rw [List.get_eq_getElem] at hvi
  subst hrs
  have hlen2 : ((rows.zip (vols.map fun v => v.getD 0)).map
      (fun p => (⟨p.1.name, p.1.qty, p.2, p.2 * p.1.qty⟩ : ResolvedRow))).length
      = rows.length := by
    simp [hlen]
  refine ⟨by rw [hlen2]; exact hi, ?_, ?_⟩ <;>
    simp only [List.get_eq_getElem, List.getElem_map, List.getElem_zip, hvi] <;>
    simp

/-- Claim C3 is violated by the code: on a one-row input the chunk layout is
`(0,1),(1,2),(2,3),(3,1)` (step `max(1 // 4, 1) = 1`), so the second worker
reads `product_names[1]` past the end of the list and the whole run aborts
with `IndexError` instead of returning a one-row result. The same slip hits
zero- and two-row inputs; three or more rows are fine. -/
theorem order_preservation_failure_one_row :
    process_warehouse_file (fun _ _ => 0) ⟨[("x", 1)]⟩ [⟨"x", 2⟩]
      = .error "IndexError" := rfl

/-- Claim C4 is violated by the code on the empty input: chunk `(0,1)` reads
`product_names[0]` of an empty list, so the run aborts with `IndexError`
before the trailer row is ever appended — the claimed trailer with total 0
never materializes. -/
theorem trailer_failure_empty_input :
    process_warehouse_file (fun _ _ => 0) ⟨[]⟩ [] = .error "IndexError" := rfl

/-- Claim C5: empty-name handling. For every catalog (including one holding
blank names) and every scorer: (1) a row name that is empty after stripping
resolves to null without any lookup (the guard `if name` precedes
`match_product`, so neither the dict nor the scorer is consulted); (2) in a
completed run, such a row is emitted with `Volume = 0` and
`Total Volume = 0`. -/
theorem empty_name_handling (scorer : Scorer) (c : Catalog) :
    (∀ raw, strip raw = "" → resolveRow scorer c raw = .ok none)
    ∧ (∀ (rows : List Row) (rs : List ResolvedRow) (t : ℚ) (i : ℕ)
        (hi : i < rows.length),
        process_warehouse_file scorer c rows = .ok (rs, t) →
        strip (rows.get ⟨i, hi⟩).name = "" →
        ∃ hi2 : i < rs.length,
          (rs.get ⟨i, hi2⟩).volume = 0 ∧ (rs.get ⟨i, hi2⟩).total = 0) := by
  have h1 : ∀ raw, strip raw = "" → resolveRow scorer c raw = .ok none := by
    intro raw h
    simp [resolveRow, h]
  exact ⟨h1, fun rows rs t i hi hok hstrip =>
    row_none_zero hok hi (h1 _ hstrip)⟩

/-- Witness for C5: a catalog that DOES contain a blank name mapped to volume
7, and a run whose first row is whitespace-only: the row still resolves to
null and is emitted with zero volume and zero total. -/
theorem empty_name_handling_witness :
    resolveRow (fun _ _ => 0) ⟨[("", 7)]⟩ "  " = .ok none
    ∧ ∃ hi2 : 0 < ([⟨"  ", 5, 0, 0⟩, ⟨"", 2, 0, 0⟩, ⟨"", 0, 0, 0⟩]
        : List ResolvedRow).length,
        ((([⟨"  ", 5, 0, 0⟩, ⟨"", 2, 0, 0⟩, ⟨"", 0, 0, 0⟩]
          : List ResolvedRow).get ⟨0, hi2⟩).volume = 0
        ∧ ((([⟨"  ", 5, 0, 0⟩, ⟨"", 2, 0, 0⟩, ⟨"", 0, 0, 0⟩]
          : List ResolvedRow).get ⟨0, hi2⟩).total = 0)) :=
  ⟨(empty_name_handling (fun _ _ => 0) ⟨[("", 7)]⟩).1 "  " (by rfl),
   (empty_name_handling (fun _ _ => 0) ⟨[("", 7)]⟩).2
     [⟨"  ", 5⟩, ⟨"", 2⟩, ⟨"", 0⟩]
     [⟨"  ", 5, 0, 0⟩, ⟨"", 2, 0, 0⟩, ⟨"", 0, 0, 0⟩] 0 0
     (by decide)
     (by simp +decide [process_warehouse_file, computeVolumes, chunkedResolve,
       chunkBounds, worker, mapE, resolveAt, resolveRow, match_product,
       extractOne, better, strip, product_dict, dictLookup,
       product_name_list, List.range'])
     (by rfl)⟩

/-- Claim C6: determinism under parallelism. For ANY partition of the index
space into contiguous chunks (given as bounds whose ranges concatenate to the
full index range), chunked resolution — including which error would surface —
equals sequential left-to-right resolution, because the per-row work is a
pure function of the row and the shared read-only index. -/
theorem chunked_matches_sequential (scorer : Scorer) (c : Catalog)
    (names : List String) (bounds : List (ℕ × ℕ))
    (hcov : (bounds.map fun b => List.range' b.1 (b.2 - b.1)).flatten
        = List.range' 0 names.length) :
    chunkedResolve scorer c names bounds = sequentialResolve scorer c names := by
  rw [chunked_eq_seq_of_cov scorer c names bounds _ hcov, seq_index_eq]

/-- Witness for C6: a five-name input split into two chunks `[0,2)` and
`[2,5)` resolves identically to the sequential pass. -/
theorem chunked_matches_sequential_witness :
    (([((0 : ℕ), (2 : ℕ)), (2, 5)].map
        fun b => List.range' b.1 (b.2 - b.1)).flatten
      = List.range' 0 (["aa", "bb", "cc", "dd", "ee"] : List String).length)
    ∧ chunkedResolve (fun _ _ => 0) ⟨[("aa", 1)]⟩ ["aa", "bb", "cc", "dd", "ee"]
        [(0, 2), (2, 5)]
      = sequentialResolve (fun _ _ => 0) ⟨[("aa", 1)]⟩
          ["aa", "bb", "cc", "dd", "ee"] :=
  ⟨by decide,
   chunked_matches_sequential (fun _ _ => 0) ⟨[("aa", 1)]⟩
     ["aa", "bb", "cc", "dd", "ee"] [(0, 2), (2, 5)] (by decide)⟩

/-- Claim C10: implicit output coercion. In a completed run, a row whose name
failed to resolve (null unit volume) is emitted with `Volume = 0` — never a
null/blank cell, since the column is numerically coerced with `fillna(0)` —
and consequently its `Total Volume` is `0`. -/
theorem output_volume_coercion (scorer : Scorer) (c : Catalog)
    (rows : List Row) (rs : List ResolvedRow) (t : ℚ) (i : ℕ)
    (hi : i < rows.length)
    (hok : process_warehouse_file scorer c rows = .ok (rs, t))
    (hnone : resolveRow scorer c (rows.get ⟨i, hi⟩).name = .ok none) :
    ∃ hi2 : i < rs.length,
      (rs.get ⟨i, hi2⟩).volume = 0 ∧ (rs.get ⟨i, hi2⟩).total = 0 :=
  row_none_zero hok hi hnone

/-- Witness for C10: in a three-row run where row 0 (`zzz`) does not resolve
(best fuzzy score 0 < 80), the emitted row 0 carries volume 0 and total 0. -/
theorem output_volume_coercion_witness :
    ∃ hi2 : 0 < ([⟨"zzz", 5, 0, 0⟩, ⟨"x", 3, 1, 3⟩, ⟨"x", 0, 1, 0⟩]
        : List ResolvedRow).length,
      ((([⟨"zzz", 5, 0, 0⟩, ⟨"x", 3, 1, 3⟩, ⟨"x", 0, 1, 0⟩]
        : List ResolvedRow).get ⟨0, hi2⟩).volume = 0
      ∧ ((([⟨"zzz", 5, 0, 0⟩, ⟨"x", 3, 1, 3⟩, ⟨"x", 0, 1, 0⟩]
        : List ResolvedRow).get ⟨0, hi2⟩).total = 0)) :=
  output_volume_coercion (fun _ _ => 0) ⟨[("x", 1)]⟩
    [⟨"zzz", 5⟩, ⟨"x", 3⟩, ⟨"x", 0⟩]
    [⟨"zzz", 5, 0, 0⟩, ⟨"x", 3, 1, 3⟩, ⟨"x", 0, 1, 0⟩] 3 0
    (by decide)
    (by simp +decide [process_warehouse_file, computeVolumes, chunkedResolve,
      chunkBounds, worker, mapE, resolveAt, resolveRow, match_product,
      extractOne, better, strip, product_dict, dictLookup,
      product_name_list, List.range'])
    (by rfl)
